import Mathlib

/-!
# chartscan — verification of the reference-resolution-and-merge core

Shallow embedding of the core logic of the `chartscan` repository
(`src/internal/renderer/renderer.go`, `src/cmd/chartscan/main.go`, plus the
older renderer variant in `src/unnamed/part_003`), together with proofs about
the spec's claims for it.

Modelling conventions:
* Go's `interface{}` values parsed from YAML become the inductive `Val`
  (null, scalars, sequences, mappings).  A Go `map[string]interface{}` is
  modelled value-wise as an association list `ValMap` (Go maps have unique
  keys; iteration order is fixed to the entry-list order).
* The in-place `mergeMaps` is modelled twice: value-wise (`mergeMaps`, maps as
  trees, the view relevant for merge results) and heap-wise
  (`Chartscan.HeapModel`, maps as pointers into an explicit heap, the view
  relevant for aliasing and mutation claims).
* File system, YAML unmarshalling and the external `helm` subprocesses are
  oracles packed into `ScanEnv`; all control flow and error-message assembly
  of the Go code is embedded faithfully.
-/

namespace Chartscan

/-- A parsed YAML value as used by the Go code (`interface{}` after
`yaml.Unmarshal`): null, scalars, sequences, or nested string-keyed maps. -/
inductive Val where
  | vnull
  | vbool (b : Bool)
  | vint (n : Int)
  | vstr (s : String)
  | vseq (elems : List Val)
  | vmap (entries : List (String × Val))

/-- Entry list of a Go `map[string]interface{}` (keys unique in real maps). -/
abbrev ValMap := List (String × Val)

/-- Map read `m[k]` (first entry with the key, as Go maps have unique keys). -/
def lookupKey (m : ValMap) (k : String) : Option Val :=
  (m.find? (fun e => e.1 = k)).map (fun e => e.2)

/-- Map write `m[k] = v`: replace the entry if the key is present, otherwise
append a new entry. -/
def setk : ValMap → String → Val → ValMap
  | [], k, v => [(k, v)]
  | (k', v') :: rest, k, v =>
    if k' = k then (k, v) :: rest else (k', v') :: setk rest k v

mutual

/-- Value-level model of `mergeMaps` (renderer.go lines 161-173): iterate over
the source entries, updating the target entry by entry.  The Go function
mutates `target` in place; here the updated target is returned (Go map
iteration order is unspecified; the entry-list order is used). -/
def mergeMaps : ValMap → ValMap → ValMap
  | t, [] => t
  | t, (k, v) :: rest => mergeMaps (mergeStep t k v) rest
termination_by _ s => sizeOf s
decreasing_by
  all_goals simp_wf
  all_goals omega

/-- One iteration of the `mergeMaps` loop: when both the target value and the
source value at the key are maps, merge recursively; otherwise overwrite. -/
def mergeStep (t : ValMap) (k : String) (v : Val) : ValMap :=
  match lookupKey t k, v with
  | some (.vmap tm), .vmap sm => setk t k (.vmap (mergeMaps tm sm))
  | _, _ => setk t k v
termination_by sizeOf v
decreasing_by
  all_goals simp_wf

end

/-- Go `strings.Split(s, ".")` on the characters of a reference name. -/
def splitDotChars : List Char → List (List Char)
  | [] => [[]]
  | c :: rest =>
    if c = '.' then [] :: splitDotChars rest
    else
      match splitDotChars rest with
      | l :: ls => (c :: l) :: ls
      | [] => [[c]]

/-- Go `strings.Split(name, ".")`: the dotted reference path split into
segments. -/
def splitDots (name : String) : List String :=
  (splitDotChars name.data).map String.mk

/-- `checkNestedValueExists` (renderer.go lines 125-150): walk the key path;
a non-final segment must map to a nested map, the final segment need only be
present as a key. -/
def checkNestedValueExists : List String → Val → Bool
  | [], _ => false
  | [k], .vmap es => (lookupKey es k).isSome
  | k :: k2 :: ks, .vmap es =>
    match lookupKey es k with
    | some (.vmap es2) => checkNestedValueExists (k2 :: ks) (.vmap es2)
    | _ => false
  | _ :: _, _ => false

end Chartscan

namespace Chartscan

/-- Spec-side resolution predicate, written from the spec's words: every
non-final segment maps to a nested mapping containing the following segment,
and the final segment exists as a key in the mapping reached (its value,
including null, still counts as defined). -/
def SpecResolve : List String → ValMap → Prop
  | [], _ => False
  | [k], m => (lookupKey m k).isSome
  | k :: k2 :: ks, m =>
    ∃ m', lookupKey m k = some (.vmap m') ∧ SpecResolve (k2 :: ks) m'

theorem lookupKey_setk_self (m : ValMap) (k : String) (v : Val) :
    lookupKey (setk m k v) k = some v := by
  induction m with
  | nil => simp [setk, lookupKey, List.find?]
  | cons e rest ih =>
    by_cases h : e.1 = k
    · simp [setk, h, lookupKey, List.find?]
    · simp only [setk]
      rw [if_neg h]
      simpa [lookupKey, List.find?, h] using ih

theorem lookupKey_setk_ne (m : ValMap) (k k' : String) (v : Val) (h : k' ≠ k) :
    lookupKey (setk m k v) k' = lookupKey m k' := by
  induction m with
  | nil => simp [setk, lookupKey, List.find?, Ne.symm h]
  | cons e rest ih =>
    by_cases he : e.1 = k
    · simp [setk, he, lookupKey, List.find?, Ne.symm h, he ▸ (Ne.symm h)]
    · simp only [setk]
      rw [if_neg he]
      by_cases he' : e.1 = k'
      · simp [lookupKey, List.find?, he']
      · simpa [lookupKey, List.find?, he'] using ih

theorem lookupKey_eq_none_of_not_mem (m : ValMap) (k : String)
    (h : k ∉ m.map Prod.fst) : lookupKey m k = none := by
  induction m with
  | nil => simp [lookupKey]
  | cons e rest ih =>
    simp only [List.map_cons, List.mem_cons] at h
    push_neg at h
    have hne : ¬ (e.1 = k) := fun hq => h.1 hq.symm
    simpa [lookupKey, List.find?, hne] using ih h.2

theorem lookupKey_cons (k1 : String) (v1 : Val) (rest : ValMap) (k : String) :
    lookupKey ((k1, v1) :: rest) k =
      if k1 = k then some v1 else lookupKey rest k := by
  by_cases h : k1 = k <;> simp [lookupKey, List.find?, h]

/-- The merge result at one key, written from the spec's words: the source
value wins at every key the source defines, except that two mappings are
merged recursively; keys the source does not define keep the target value. -/
def SpecMergeValue (t s : ValMap) (k : String) : Option Val :=
  match lookupKey s k, lookupKey t k with
  | none, tv => tv
  | some (.vmap sm), some (.vmap tm) => some (.vmap (mergeMaps tm sm))
  | some sv, _ => some sv

/-- C1: after `merge(target, source)` the target contains, at every key, the
value from the source when the source defines that key, recursing exactly when
both sides hold mappings there; non-mapping values (scalars and sequences) are
replaced wholesale, and target keys absent from the source are unchanged. -/
theorem mergeMaps_lookup_eq_spec (t s : ValMap) (hs : (s.map Prod.fst).Nodup)
    (k : String) : lookupKey (mergeMaps t s) k = SpecMergeValue t s k := by
  induction s generalizing t with
  | nil => simp [mergeMaps, SpecMergeValue, lookupKey]
  | cons e rest ih =>
    obtain ⟨k1, v1⟩ := e
    simp only [List.map_cons, List.nodup_cons] at hs
    rw [mergeMaps]
    rw [ih _ hs.2]
    by_cases hk : k1 = k
    · subst hk
      have hrest : lookupKey rest k1 = none :=
        lookupKey_eq_none_of_not_mem rest k1 hs.1
      unfold SpecMergeValue mergeStep
      rw [lookupKey_cons, if_pos rfl, hrest]
      cases ht : lookupKey t k1 with
      | none =>
        cases v1 <;> simp [ht, lookupKey_setk_self]
      | some tv =>
        cases tv <;> cases v1 <;> simp [ht, lookupKey_setk_self]
    · unfold SpecMergeValue mergeStep
      rw [lookupKey_cons, if_neg hk]
      have hset : ∀ v : Val,
          lookupKey (setk t k1 v) k = lookupKey t k := fun v =>
        lookupKey_setk_ne t k1 k v (fun h => hk h.symm)
      cases ht : lookupKey t k1 with
      | none => cases v1 <;> simp [ht, hset]
      | some tv => cases tv <;> cases v1 <;> simp [ht, hset]

/-- Witness for C1 at concrete maps (scenario B of the spec, with an extra
target-only key): the overlapping scalar key is overwritten by the source. -/
theorem mergeMaps_lookup_eq_spec_witness :
    (([("port", Val.vint 8080), ("name", Val.vstr "web")] : ValMap).map
        Prod.fst).Nodup ∧
      lookupKey
        (mergeMaps [("port", Val.vint 80), ("keep", Val.vint 1)]
          [("port", Val.vint 8080), ("name", Val.vstr "web")]) "port" =
        some (Val.vint 8080) :=
  ⟨by decide,
    mergeMaps_lookup_eq_spec [("port", Val.vint 80), ("keep", Val.vint 1)]
      [("port", Val.vint 8080), ("name", Val.vstr "web")] (by decide) "port"⟩

theorem checkNested_iff_specResolve :
    ∀ (ks : List String) (m : ValMap),
      checkNestedValueExists ks (.vmap m) = true ↔ SpecResolve ks m
  | [], m => by simp [checkNestedValueExists, SpecResolve]
  | [k], m => by simp [checkNestedValueExists, SpecResolve]
  | k :: k2 :: ks, m => by
    simp only [checkNestedValueExists, SpecResolve]
    cases h : lookupKey m k with
    | none => simp [h]
    | some v =>
      cases v with
      | vmap es2 =>
        rw [checkNested_iff_specResolve (k2 :: ks) es2]
        constructor
        · exact fun hr => ⟨es2, rfl, hr⟩
        · rintro ⟨m', hm', hr⟩
          cases hm'
          exact hr
      | vnull => simp
      | vbool b => simp
      | vint n => simp
      | vstr s => simp
      | vseq es => simp

/-- C2: resolution of a dotted reference name against the merged mapping —
splitting on `.` and walking the mapping — succeeds iff every non-final
segment maps to a nested mapping containing the next segment and the final
segment exists as a key in the mapping reached (a null or empty value still
counts as defined); it fails as soon as a non-final step hits a non-mapping
or a missing key. -/
theorem checkNestedValueExists_iff_specResolve (name : String) (m : ValMap) :
    checkNestedValueExists (splitDots name) (.vmap m) = true ↔
      SpecResolve (splitDots name) m :=
  checkNested_iff_specResolve (splitDots name) m

end Chartscan

namespace Chartscan

/-- `models.ValueReference` (internal/models/result.go): one occurrence of a
`.Values` placeholder in a template file. -/
structure ValueReference where
  name : String
  file : String
  line : Nat
  fullText : String
deriving DecidableEq

/-- Go regexp `\s` (RE2 whitespace class: space, tab, newline, form feed,
carriage return). -/
def isGoSpace (c : Char) : Bool :=
  c = ' ' || c = '\t' || c = '\n' || c = '\x0c' || c = '\r'

/-- The character class `[a-zA-Z0-9_.\[\]-]` of the placeholder regex. -/
def isRefChar (c : Char) : Bool :=
  c.isAlpha || c.isDigit || c = '_' || c = '.' || c = '[' || c = ']' || c = '-'

/-- The literal `.Values.` part of the placeholder regex. -/
def valuesLit : List Char := ['.', 'V', 'a', 'l', 'u', 'e', 's', '.']

/-- Consume an exact literal from the front: `dropLit lit l = some r` iff
`l = lit ++ r`. -/
def dropLit : List Char → List Char → Option (List Char)
  | [], l => some l
  | _ :: _, [] => none
  | c :: cs, x :: xs => if c = x then dropLit cs xs else none

theorem dropLit_some {lit l r : List Char} (h : dropLit lit l = some r) :
    l = lit ++ r := by
  induction lit generalizing l with
  | nil =>
    simp only [dropLit, Option.some.injEq] at h
    simp [h]
  | cons c cs ih =>
    cases l with
    | nil => simp [dropLit] at h
    | cons x xs =>
      simp only [dropLit] at h
      split at h
      · next hc => simpa [hc] using ih h
      · exact absurd h (by simp)

/-- One attempt of the placeholder regex
`\x7b\x7b\s*\.Values\.([a-zA-Z0-9_.\[\]-]+)\s*\x7d\x7d` anchored at the start
of `l`.  The three character classes involved (whitespace, reference
characters, the brace) are pairwise disjoint, so the greedy leftmost-first
semantics of Go's regexp engine reduces to this deterministic maximal-munch
scan.  On success it returns `(full matched text, captured group, remaining
input)`. -/
def tryMatchAt (l : List Char) : Option (List Char × List Char × List Char) :=
  match l with
  | '\x7b' :: '\x7b' :: r0 =>
    match dropLit valuesLit (r0.dropWhile isGoSpace) with
    | none => none
    | some r2 =>
      match r2.takeWhile isRefChar with
      | [] => none
      | b0 :: bs =>
        match (r2.dropWhile isRefChar).dropWhile isGoSpace with
        | '\x7d' :: '\x7d' :: r5 =>
          some ('\x7b' :: '\x7b' ::
              (r0.takeWhile isGoSpace ++ valuesLit ++ (b0 :: bs) ++
                (r2.dropWhile isRefChar).takeWhile isGoSpace ++
                ['\x7d', '\x7d']),
            b0 :: bs, r5)
        | _ => none
  | _ => none

/-- Non-overlapping left-to-right scan for all matches, as
`FindAllStringSubmatchIndex` does: try at each position, resume after a match.
The fuel argument (instantiated with the input length) only serves
termination; it is never exhausted. -/
def scanAux : Nat → List Char → List (List Char × List Char)
  | 0, _ => []
  | _ + 1, [] => []
  | fuel + 1, c :: cs =>
    match tryMatchAt (c :: cs) with
    | some (ft, b, rest) => (b, ft) :: scanAux fuel rest
    | none => scanAux fuel cs

/-- All matches of the placeholder regex in `l`, in text order; each match is
`(captured dotted path, full matched text)`. -/
def scanRefs (l : List Char) : List (List Char × List Char) :=
  scanAux l.length l

/-- Go `strings.Split(s, "\n")` on character lists. -/
def splitOnNl : List Char → List (List Char)
  | [] => [[]]
  | c :: rest =>
    if c = '\n' then [] :: splitOnNl rest
    else
      match splitOnNl rest with
      | l :: ls => (c :: l) :: ls
      | [] => [[c]]

/-- Go `strings.Contains` on character lists. -/
def containsSub (hay sub : List Char) : Bool :=
  if (dropLit sub hay).isSome then true
  else
    match hay with
    | [] => false
    | _ :: t => containsSub t sub

/-- Emission loop of the line-by-line `TemplateParser` (renderer.go lines
47-71) for the matches of one line: reject an empty captured reference with
an error, otherwise build a `ValueReference` per match. -/
def buildRefs (file : String) (ln : Nat) :
    List (List Char × List Char) → Except String (List ValueReference)
  | [] => .ok []
  | (b, ft) :: rest =>
    if b = [] then .error ("empty value reference: " ++ String.mk ft)
    else
      match buildRefs file ln rest with
      | .error e => .error e
      | .ok rs => .ok (⟨String.mk b, file, ln, String.mk ft⟩ :: rs)

/-- Per-line loop of the line-by-line `TemplateParser`: line numbers are
1-based, an error on any line aborts the whole parse. -/
def parseLines (file : String) : Nat → List (List Char) →
    Except String (List ValueReference)
  | _, [] => .ok []
  | ln, l :: rest =>
    match buildRefs file ln (scanRefs l) with
    | .error e => .error e
    | .ok rs =>
      match parseLines file (ln + 1) rest with
      | .error e => .error e
      | .ok rs' => .ok (rs ++ rs')

/-- Content-level model of `TemplateParser` in
src/internal/renderer/renderer.go (lines 31-75): split the file into lines,
match the placeholder regex on each line, and emit one reference per match
with its 1-based line number (reading the file itself is left to the caller's
oracle). -/
def templateParserR (file : String) (content : List Char) :
    Except String (List ValueReference) :=
  parseLines file 1 (splitOnNl content)

/-- The line-number search of the whole-text `TemplateParser` in
src/unnamed/part_003 (lines 36-42): the first line that contains the matched
full text, defaulting to 1. -/
def firstLineContaining (lines : List (List Char)) (sub : List Char) : Nat :=
  match lines.findIdx? (fun l => containsSub l sub) with
  | some i => i + 1
  | none => 1

/-- Content-level model of the whole-text `TemplateParser` in
src/unnamed/part_003 (lines 21-54): match the placeholder regex against the
entire file content, then look the full text of each match up among the lines
to assign a line number.  It never fails on content. -/
def templateParserP3 (file : String) (content : List Char) :
    List ValueReference :=
  (scanRefs content).map (fun bf =>
    ⟨String.mk bf.1, file, firstLineContaining (splitOnNl content) bf.2,
      String.mk bf.2⟩)

/-- Spec-side notion of a placeholder whose parameter body is empty after
trimming: somewhere in the content an opening marker is followed, up to
whitespace, by the `.Values.` prefix and then immediately (up to whitespace)
by the closing marker. -/
def SpecEmptyPlaceholder (content : List Char) : Prop :=
  ∃ pre ws1 ws2 post : List Char,
    (∀ c ∈ ws1, isGoSpace c) ∧ (∀ c ∈ ws2, isGoSpace c) ∧
      content =
        pre ++ ['\x7b', '\x7b'] ++ ws1 ++ valuesLit ++ ws2 ++
          ['\x7d', '\x7d'] ++ post

theorem tryMatchAt_some {l ft b rest : List Char}
    (h : tryMatchAt l = some (ft, b, rest)) : b ≠ [] ∧ l = ft ++ rest := by
  unfold tryMatchAt at h
  split at h
  case h_2 => simp at h
  case h_1 x r0 =>
    split at h
    · simp at h
    · next r2 hdrop =>
      split at h
      · simp at h
      · next b0 bs htake =>
        split at h
        · next r5 hrest =>
          simp only [Option.some.injEq, Prod.mk.injEq] at h
          obtain ⟨hft, hb, hr⟩ := h
          subst hft
          subst hb
          subst hr
          refine ⟨by simp, ?_⟩
          have h1 : r0.dropWhile isGoSpace = valuesLit ++ r2 :=
            dropLit_some hdrop
          have hr0 : r0 =
              r0.takeWhile isGoSpace ++ (valuesLit ++ ((b0 :: bs) ++
                ((r2.dropWhile isRefChar).takeWhile isGoSpace ++
                  ('\x7d' :: '\x7d' :: r5)))) := by
            conv_lhs =>
              rw [← List.takeWhile_append_dropWhile (p := isGoSpace) (l := r0)]
              rw [h1]
              rw [show r2 = (b0 :: bs) ++ r2.dropWhile isRefChar by
                conv_lhs =>
                  rw [← List.takeWhile_append_dropWhile
                    (p := isRefChar) (l := r2)]
                  rw [htake]]
              rw [show r2.dropWhile isRefChar =
                  (r2.dropWhile isRefChar).takeWhile isGoSpace ++
                    ('\x7d' :: '\x7d' :: r5) by
                conv_lhs =>
                  rw [← List.takeWhile_append_dropWhile (p := isGoSpace)
                    (l := r2.dropWhile isRefChar)]
                  rw [hrest]]
          conv_lhs => rw [hr0]
          simp [List.append_assoc]
        · simp at h

theorem scanAux_mem {fuel : Nat} {l b ft : List Char}
    (h : (b, ft) ∈ scanAux fuel l) : b ≠ [] ∧ ft <:+: l := by
  induction fuel generalizing l with
  | zero => simp [scanAux] at h
  | succ fuel ih =>
    cases l with
    | nil => simp [scanAux] at h
    | cons c cs =>
      rw [scanAux] at h
      revert h
      cases hm : tryMatchAt (c :: cs) with
      | none =>
        intro h
        obtain ⟨hb, hinf⟩ := ih h
        exact ⟨hb, hinf.trans ⟨[c], [], by simp⟩⟩
      | some m =>
        obtain ⟨ft', b', rest⟩ := m
        intro h
        obtain ⟨hb', hsplit⟩ := tryMatchAt_some hm
        rcases List.mem_cons.mp h with heq | hmem
        · injection heq with h1 h2
          subst h1
          subst h2
          refine ⟨hb', ?_⟩
          rw [hsplit]
          exact (List.prefix_append _ _).isInfix
        · obtain ⟨hb, hinf⟩ := ih hmem
          refine ⟨hb, hinf.trans ?_⟩
          exact (show rest <:+ c :: cs from ⟨ft', hsplit.symm⟩).isInfix

theorem dropLit_self_append (sub t : List Char) :
    dropLit sub (sub ++ t) = some t := by
  induction sub with
  | nil => simp [dropLit]
  | cons c cs ih => simp [dropLit, ih]

theorem containsSub_of_infix {hay sub : List Char} (h : sub <:+: hay) :
    containsSub hay sub = true := by
  obtain ⟨s, t, hst⟩ := h
  induction s generalizing hay with
  | nil =>
    rw [containsSub.eq_def]
    simp at hst
    rw [← hst, dropLit_self_append]
    simp
  | cons c s' ih =>
    subst hst
    rw [containsSub.eq_def]
    split
    · rfl
    · simpa using ih rfl

theorem buildRefs_ok (file : String) (ln : Nat)
    (ms : List (List Char × List Char)) (hne : ∀ bf ∈ ms, bf.1 ≠ []) :
    buildRefs file ln ms =
      .ok (ms.map (fun bf =>
        ⟨String.mk bf.1, file, ln, String.mk bf.2⟩)) := by
  induction ms with
  | nil => simp [buildRefs]
  | cons bf rest ih =>
    obtain ⟨b, ft⟩ := bf
    have hb : b ≠ [] := hne (b, ft) (List.mem_cons_self ..)
    rw [buildRefs, if_neg hb, ih (fun x hx => hne x (List.mem_cons_of_mem _ hx))]
    simp

theorem parseLines_ok (file : String) (lines : List (List Char)) :
    ∀ ln, ∃ refs, parseLines file ln lines = .ok refs ∧
      ∀ r ∈ refs, r.name ≠ "" := by
  induction lines with
  | nil => exact fun ln => ⟨[], rfl, by simp⟩
  | cons l rest ih =>
    intro ln
    obtain ⟨refs', hok', hne'⟩ := ih (ln + 1)
    have hbuild := buildRefs_ok file ln (scanRefs l)
      (fun bf hbf => (scanAux_mem hbf).1)
    refine ⟨(scanRefs l).map (fun bf =>
      ⟨String.mk bf.1, file, ln, String.mk bf.2⟩) ++ refs', ?_, ?_⟩
    · rw [parseLines, hbuild, hok']
    · intro r hr
      rcases List.mem_append.mp hr with hr | hr
      · obtain ⟨bf, hbf, rfl⟩ := List.mem_map.mp hr
        have hb : bf.1 ≠ [] := (scanAux_mem hbf).1
        simpa [String.ext_iff] using hb
      · exact hne' r hr

/-- C3 counterexample: the content `\x7b\x7b .Values. \x7d\x7d` is a
placeholder whose parameter body is empty after trimming, yet the line-by-line
`TemplateParser` does not fail — it succeeds with an empty reference list
(the regex requires at least one path character, so the empty-body text is
simply never matched and the error branch is unreachable). -/
theorem templateParser_empty_body_counterexample :
    SpecEmptyPlaceholder "\x7b\x7b .Values. \x7d\x7d".toList ∧
      templateParserR "chart/templates/t.yaml"
        "\x7b\x7b .Values. \x7d\x7d".toList = .ok [] :=
  ⟨⟨[], [' '], [' '], [], by decide, by decide, by decide⟩, rfl⟩

/-- C3 amended: the extractor never fails on file content at all — a
placeholder-shaped text with an empty trimmed body is not matched by the
placeholder syntax and is silently ignored rather than reported — and every
`ValueReference` it produces has a non-empty name. -/
theorem templateParser_names_nonempty (file : String) (content : List Char) :
    ∃ refs, templateParserR file content = .ok refs ∧
      ∀ r ∈ refs, r.name ≠ "" :=
  parseLines_ok file (splitOnNl content) 1

theorem splitOnNl_eq_single {l : List Char} (h : '\n' ∉ l) :
    splitOnNl l = [l] := by
  induction l with
  | nil => rfl
  | cons c cs ih =>
    have hc : c ≠ '\n' := fun hq => h (hq ▸ List.mem_cons_self ..)
    have hcs : '\n' ∉ cs := fun hq => h (List.mem_cons_of_mem _ hq)
    rw [splitOnNl, if_neg hc, ih hcs]

/-- C10 amended: the whole-text `TemplateParser` of src/unnamed/part_003 and
the line-by-line `TemplateParser` of src/internal/renderer/renderer.go return
the same sequence of references (same names, line numbers and full texts, in
the same order) for every content that contains no newline; on multi-line
contents they can disagree, because the whole-text variant also matches
placeholders that span a line boundary (`\s` matches newlines) and assigns
every match the first line that happens to contain its full text. -/
theorem templateParser_agree_no_newline (file : String) (content : List Char)
    (h : '\n' ∉ content) :
    templateParserR file content = .ok (templateParserP3 file content) := by
  unfold templateParserR templateParserP3
  rw [splitOnNl_eq_single h]
  rw [parseLines,
    buildRefs_ok file 1 (scanRefs content) (fun bf hbf => (scanAux_mem hbf).1),
    parseLines]
  have hline : ∀ bf ∈ scanRefs content,
      firstLineContaining [content] bf.2 = 1 := by
    intro bf hbf
    have hinf : bf.2 <:+: content := (scanAux_mem hbf).2
    unfold firstLineContaining
    rw [List.findIdx?_cons, containsSub_of_infix hinf]
    simp
  simp only [List.append_nil]
  exact congrArg Except.ok (List.map_congr_left
    (fun bf hbf => by rw [hline bf hbf]))

/-- Witness for the amended C10 at a concrete single-line template. -/
theorem templateParser_agree_no_newline_witness :
    templateParserR "w.yaml" "\x7b\x7b .Values.x \x7d\x7d".toList =
      .ok (templateParserP3 "w.yaml" "\x7b\x7b .Values.x \x7d\x7d".toList) :=
  templateParser_agree_no_newline "w.yaml" _ (by decide)

/-- C10 counterexample: on `\x7b\x7b<newline>.Values.a \x7d\x7d` the two
extractor implementations both succeed but return different reference lists —
the line-by-line parser finds nothing, while the whole-text parser matches
across the newline and reports one reference. -/
theorem templateParser_variants_disagree :
    templateParserR "t.yaml" "\x7b\x7b\n.Values.a \x7d\x7d".toList =
        .ok [] ∧
      templateParserP3 "t.yaml" "\x7b\x7b\n.Values.a \x7d\x7d".toList =
        [⟨"a", "t.yaml", 1, "\x7b\x7b\n.Values.a \x7d\x7d"⟩] ∧
      ([] : List ValueReference) ≠
        [⟨"a", "t.yaml", 1, "\x7b\x7b\n.Values.a \x7d\x7d"⟩] :=
  ⟨rfl, rfl, by decide⟩

/-- `CheckValueReferences` (renderer.go lines 104-121): walk the references in
order and emit one formatted diagnostic per reference whose dotted path does
not resolve in the values map. -/
def CheckValueReferences : List ValueReference → ValMap → List String
  | [], _ => []
  | r :: rest, values =>
    if checkNestedValueExists (splitDots r.name) (.vmap values) then
      CheckValueReferences rest values
    else
      ("Undefined value: '" ++ r.name ++ "' referenced in " ++ r.file ++
          " at line " ++ toString r.line) ::
        CheckValueReferences rest values

/-- The exact diagnostic shape required by the spec:
`Undefined value: '<dotted.path>' referenced in <file> at line <N>`. -/
def fmtUndefined (r : ValueReference) : String :=
  "Undefined value: '" ++ r.name ++ "' referenced in " ++ r.file ++
    " at line " ++ toString r.line

/-- C7: the undefined-value diagnostics are exactly one string per
non-resolving reference occurrence, in extraction order, without
deduplication, each of the exact shape
`Undefined value: '<dotted.path>' referenced in <file> at line <N>` with `N`
the occurrence's stored 1-based line number. -/
theorem checkValueReferences_eq_filter_map (refs : List ValueReference)
    (values : ValMap) :
    CheckValueReferences refs values =
      (refs.filter (fun r =>
        !(checkNestedValueExists (splitDots r.name) (.vmap values)))).map
        fmtUndefined := by
  induction refs with
  | nil => rfl
  | cons r rest ih =>
    by_cases hr : checkNestedValueExists (splitDots r.name) (.vmap values)
    · simp [CheckValueReferences, hr, ih]
    · simp [CheckValueReferences, hr, ih, fmtUndefined]

end Chartscan

namespace Chartscan

/-- `os.Stat` outcome, as far as the code inspects it. -/
inductive StatOutcome where
  | ok
  | notExist
  | statError (msg : String)
deriving DecidableEq

/-- `os.Stat` outcome for the templates directory. -/
inductive TemplatesStat where
  | notExist
  | statError (msg : String)
  | isFile
  | isDir
deriving DecidableEq

/-- One entry delivered by `filepath.Walk` over the templates directory:
either an access error for the path, or a (possibly directory) entry with a
name and a file-read outcome. -/
structure WalkEntry where
  path : String
  access : Option String
  isDir : Bool
  name : String
  readResult : Except String (List Char)

/-- Oracle for everything `ScanHelmChart` obtains from the file system, the
YAML parser and the external `helm` subprocesses.  `ok none` from `loadYaml`
models a file that unmarshals to a nil map (empty or all-null document). -/
structure ScanEnv where
  chartYamlDoc : Except String ValMap
  mkdirTemp : Except String String
  helmDepUpdate : Option String
  valuesFileExists : String → Bool
  helmLint : Option String
  statTemplatesDir : TemplatesStat
  walkEntries : List WalkEntry
  statValuesYaml : StatOutcome
  loadYaml : String → Except String (Option ValMap)

/-- `filepath.Join` restricted to the uses in scope (no path cleaning). -/
def goJoin (dir file : String) : String := dir ++ "/" ++ file

/-- `checkForDependencies` (renderer.go lines 533-564): the chart has
dependencies iff Chart.yaml unmarshals, holds a `dependencies` key, and that
key is a non-empty sequence. -/
def checkForDependencies (env : ScanEnv) : Except String Bool :=
  match env.chartYamlDoc with
  | .error e => .error e
  | .ok chartData =>
    match lookupKey chartData "dependencies" with
    | none => .ok false
    | some (.vseq l) => .ok (!l.isEmpty)
    | some _ => .ok false

/-- `handleDependencies` (renderer.go lines 333-361): reading Chart.yaml,
creating the temp cache dir, and running `helm dependency update` each fail
with a single-message error list. -/
def handleDependencies (env : ScanEnv) : Bool × List String :=
  match checkForDependencies env with
  | .error e => (false, ["Error reading Chart.yaml: " ++ e])
  | .ok hasDeps =>
    if hasDeps then
      match env.mkdirTemp with
      | .error e => (false, ["Error creating temp cache dir: " ++ e])
      | .ok _ =>
        match env.helmDepUpdate with
        | some e => (false, ["Error updating dependencies: " ++ e])
        | none => (true, [])
    else (true, [])

/-- `checkValuesFilesExistence` (renderer.go lines 386-395). -/
def checkValuesFilesExistence (env : ScanEnv) : List String → List String
  | [] => []
  | f :: rest =>
    if env.valuesFileExists f then checkValuesFilesExistence env rest
    else ("Values file does not exist: " ++ f) ::
      checkValuesFilesExistence env rest

/-- `parseErrorLogs` (renderer.go lines 568-580): keep the lines containing
the literal `[ERROR]` marker, in order. -/
def parseErrorLogs (output : String) : List String :=
  ((splitOnNl output.toList).filter
    (fun l => containsSub l "[ERROR]".toList)).map String.mk

/-- `lintChart` (renderer.go lines 399-423): on a failed `helm lint`, parse
the combined output for error lines; on success, no errors. -/
def lintChart (env : ScanEnv) : List String :=
  match env.helmLint with
  | none => []
  | some out => parseErrorLogs out

/-- `TemplateParser` including the `os.ReadFile` step: a read error is
returned as the parse error for that file. -/
def templateParserFile (file : String) (read : Except String (List Char)) :
    Except String (List ValueReference) :=
  match read with
  | .error e => .error e
  | .ok content => templateParserR file content

/-- Go `strings.HasSuffix` for the `.yaml` filter. -/
def goHasSuffix (s suf : String) : Bool :=
  (dropLit suf.data.reverse s.data.reverse).isSome

/-- Processing of one walk entry inside `parseTemplates` (renderer.go lines
458-476). -/
def walkStep (e : WalkEntry) : List ValueReference × List String :=
  match e.access with
  | some msg => ([], ["Error accessing file " ++ e.path ++ ": " ++ msg])
  | none =>
    if !e.isDir && goHasSuffix e.name ".yaml" then
      match templateParserFile e.path e.readResult with
      | .error pe =>
        ([], ["Error parsing template file " ++ e.path ++ ": " ++ pe])
      | .ok refs => (refs, [])
    else ([], [])

/-- The walk over the templates directory, accumulating references and errors
in walk order. -/
def walkTemplates : List WalkEntry → List ValueReference × List String
  | [] => ([], [])
  | e :: rest =>
    ((walkStep e).1 ++ (walkTemplates rest).1,
      (walkStep e).2 ++ (walkTemplates rest).2)

/-- `parseTemplates` (renderer.go lines 431-484): a missing templates
directory yields empty results without error; stat errors and a non-directory
yield one error; otherwise the directory walk runs. -/
def parseTemplates (env : ScanEnv) (chartPath : String) :
    List ValueReference × List String :=
  match env.statTemplatesDir with
  | .notExist => ([], [])
  | .statError e => ([], ["Error accessing templates directory: " ++ e])
  | .isFile =>
    ([], ["Expected templates to be a directory but found a file: " ++
      goJoin chartPath "templates"])
  | .isDir => walkTemplates env.walkEntries

/-- The loop over additional values files in `loadAndMergeValues` (renderer.go
lines 509-522): the chart's own values.yaml is skipped, load errors are
collected, nil maps are skipped, and loaded maps are merged in order. -/
def loadLoop (env : ScanEnv) (chartValuesFile : String) :
    ValMap × List String → List String → ValMap × List String
  | acc, [] => acc
  | acc, f :: rest =>
    if f = chartValuesFile then loadLoop env chartValuesFile acc rest
    else
      match env.loadYaml f with
      | .error e =>
        loadLoop env chartValuesFile
          (acc.1, acc.2 ++
            ["Error loading additional values file " ++ f ++ ": " ++ e]) rest
      | .ok (some m) =>
        loadLoop env chartValuesFile (mergeMaps acc.1 m, acc.2) rest
      | .ok none => loadLoop env chartValuesFile acc rest

/-- `loadAndMergeValues` (renderer.go lines 488-527): the chart's values.yaml
is loaded only if it stat-exists (absence is silent), its load errors are
collected rather than thrown, then the additional values files are folded in. -/
def loadAndMergeValues (env : ScanEnv) (chartPath : String)
    (valuesFiles : List String) : ValMap × List String :=
  loadLoop env (goJoin chartPath "values.yaml")
    (match env.statValuesYaml with
      | .ok =>
        match env.loadYaml (goJoin chartPath "values.yaml") with
        | .error e => ([], ["Error loading values.yaml: " ++ e])
        | .ok (some m) => (mergeMaps [] m, [])
        | .ok none => ([], [])
      | .notExist => ([], [])
      | .statError e => ([], ["Error checking values.yaml: " ++ e]))
    valuesFiles

/-- The quadruple returned by `ScanHelmChart`, the per-chart `ChartResult`
payload. -/
structure ScanResult where
  success : Bool
  errors : List String
  values : Option ValMap
  undefinedValues : List String

/-- `ScanHelmChart` (renderer.go lines 180-234): empty chart path, dependency
failure and the values-file-existence precheck short-circuit; lint errors,
template errors, load errors and undefined-value diagnostics are accumulated,
and success is the absence of any error. -/
def ScanHelmChart (env : ScanEnv) (chartPath : String)
    (valuesFiles : List String) : ScanResult :=
  if chartPath = "" then ⟨false, ["Chart path is empty"], none, []⟩
  else if (handleDependencies env).1 then
    if (if valuesFiles.isEmpty then [] else
        checkValuesFilesExistence env valuesFiles).isEmpty then
      ⟨(lintChart env ++ (parseTemplates env chartPath).2 ++
          (loadAndMergeValues env chartPath valuesFiles).2 ++
          CheckValueReferences (parseTemplates env chartPath).1
            (loadAndMergeValues env chartPath valuesFiles).1).isEmpty,
        lintChart env ++ (parseTemplates env chartPath).2 ++
          (loadAndMergeValues env chartPath valuesFiles).2 ++
          CheckValueReferences (parseTemplates env chartPath).1
            (loadAndMergeValues env chartPath valuesFiles).1,
        some (loadAndMergeValues env chartPath valuesFiles).1,
        CheckValueReferences (parseTemplates env chartPath).1
          (loadAndMergeValues env chartPath valuesFiles).1⟩
    else ⟨false,
      if valuesFiles.isEmpty then [] else
        checkValuesFilesExistence env valuesFiles, none, []⟩
  else ⟨false, (handleDependencies env).2, none, []⟩

theorem handleDependencies_spec (env : ScanEnv) :
    handleDependencies env = (true, []) ∨
      ((handleDependencies env).1 = false ∧
        (handleDependencies env).2 ≠ []) := by
  unfold handleDependencies
  cases checkForDependencies env with
  | error e => exact Or.inr (by simp)
  | ok hasDeps =>
    dsimp only
    by_cases hd : hasDeps
    · rw [if_pos hd]
      cases env.mkdirTemp with
      | error e => exact Or.inr (by simp)
      | ok d =>
        dsimp only
        cases env.helmDepUpdate with
        | some e => exact Or.inr (by simp)
        | none => exact Or.inl rfl
    · rw [if_neg hd]
      exact Or.inl rfl

theorem handleDependencies_false {env : ScanEnv}
    (h : (handleDependencies env).1 = false) :
    (handleDependencies env).2 ≠ [] := by
  rcases handleDependencies_spec env with hq | hq
  · rw [hq] at h
    simp at h
  · exact hq.2

/-- C5: on every return path of the per-chart scan — including the
short-circuiting early-error paths — the returned success flag holds exactly
when the returned error list is empty, and the returned undefined-values list
is a suffix of the error list. -/
theorem scanHelmChart_invariants (env : ScanEnv) (chartPath : String)
    (valuesFiles : List String) :
    ((ScanHelmChart env chartPath valuesFiles).success = true ↔
      (ScanHelmChart env chartPath valuesFiles).errors = []) ∧
      (ScanHelmChart env chartPath valuesFiles).undefinedValues <:+
        (ScanHelmChart env chartPath valuesFiles).errors := by
  unfold ScanHelmChart
  by_cases hp : chartPath = ""
  · rw [if_pos hp]
    exact ⟨by simp, List.nil_suffix⟩
  · rw [if_neg hp]
    by_cases hd : (handleDependencies env).1
    · rw [if_pos hd]
      by_cases hm : (if valuesFiles.isEmpty then [] else
          checkValuesFilesExistence env valuesFiles).isEmpty
      · rw [if_pos hm]
        refine ⟨by simp [List.isEmpty_iff], ?_⟩
        exact List.suffix_append _ _
      · rw [if_neg hm]
        refine ⟨?_, List.nil_suffix⟩
        simp only [List.isEmpty_iff] at hm
        simpa using hm
    · rw [if_neg hd]
      refine ⟨?_, List.nil_suffix⟩
      have := handleDependencies_false (by simpa using hd)
      simpa using this

/-- C6: a failure of dependency resolution or of the values-file-existence
precheck short-circuits the chart with only that stage's errors, whereas lint
errors, template-parse errors, value-load errors and undefined-value
diagnostics are accumulated into one list, so a chart can report lint errors
and undefined-value errors simultaneously. -/
theorem scanHelmChart_stages (env : ScanEnv) (chartPath : String)
    (valuesFiles : List String) :
    (chartPath ≠ "" → (handleDependencies env).1 = false →
      ScanHelmChart env chartPath valuesFiles =
        ⟨false, (handleDependencies env).2, none, []⟩) ∧
      (chartPath ≠ "" → (handleDependencies env).1 = true →
        valuesFiles ≠ [] →
        checkValuesFilesExistence env valuesFiles ≠ [] →
        ScanHelmChart env chartPath valuesFiles =
          ⟨false, checkValuesFilesExistence env valuesFiles, none, []⟩) ∧
      (chartPath ≠ "" → (handleDependencies env).1 = true →
        checkValuesFilesExistence env valuesFiles = [] →
        (ScanHelmChart env chartPath valuesFiles).errors =
          lintChart env ++ (parseTemplates env chartPath).2 ++
            (loadAndMergeValues env chartPath valuesFiles).2 ++
            CheckValueReferences (parseTemplates env chartPath).1
              (loadAndMergeValues env chartPath valuesFiles).1) := by
  refine ⟨fun hp hd => ?_, fun hp hd hv hm => ?_, fun hp hd hm => ?_⟩
  · unfold ScanHelmChart
    rw [if_neg hp, if_neg (by simp [hd])]
  · unfold ScanHelmChart
    rw [if_neg hp, if_pos hd, if_neg (by simp [hv, hm]),
      if_neg (by simpa using hv)]
  · unfold ScanHelmChart
    have hmiss : (if valuesFiles.isEmpty then [] else
        checkValuesFilesExistence env valuesFiles) = [] := by
      by_cases hv : valuesFiles.isEmpty <;> simp [hv, hm]
    rw [if_neg hp, if_pos hd, if_pos (by rw [hmiss]; rfl)]

/-- C8: the chart's own values.yaml yields the empty mapping and no error when
absent, exactly one load error (failing the chart) when present but
malformed, and the empty mapping without error when it parses to an empty
document. -/
theorem loadValues_absent_malformed_empty (env : ScanEnv)
    (chartPath : String) :
    (env.statValuesYaml = .notExist →
      loadAndMergeValues env chartPath [] = ([], [])) ∧
      (∀ e, env.statValuesYaml = .ok →
        env.loadYaml (goJoin chartPath "values.yaml") = .error e →
        (loadAndMergeValues env chartPath []).2 =
            ["Error loading values.yaml: " ++ e] ∧
          (chartPath ≠ "" → (handleDependencies env).1 = true →
            (ScanHelmChart env chartPath []).success = false)) ∧
      (env.statValuesYaml = .ok →
        env.loadYaml (goJoin chartPath "values.yaml") = .ok none →
        loadAndMergeValues env chartPath [] = ([], [])) := by
  refine ⟨fun hs => ?_, fun e hs hl => ⟨?_, fun hp hd => ?_⟩, fun hs hl => ?_⟩
  · unfold loadAndMergeValues
    rw [hs]
    rfl
  · unfold loadAndMergeValues
    rw [hs, hl]
    rfl
  · unfold ScanHelmChart
    rw [if_neg hp, if_pos hd, if_pos (by simp)]
    have h2 : (loadAndMergeValues env chartPath []).2 =
        ["Error loading values.yaml: " ++ e] := by
      unfold loadAndMergeValues
      rw [hs, hl]
      rfl
    simp [h2, List.isEmpty_iff]
  · unfold loadAndMergeValues
    rw [hs, hl]
    rfl

/-- A benign environment: no dependencies, clean lint, one template with an
unresolvable reference, no values files on disk. -/
def envLintUndef : ScanEnv where
  chartYamlDoc := .ok []
  mkdirTemp := .ok "tmpdir"
  helmDepUpdate := none
  valuesFileExists := fun _ => true
  helmLint := some "lint output\nfoo [ERROR] bad template\ndone"
  statTemplatesDir := .isDir
  walkEntries :=
    [⟨"c/templates/t.yaml", none, false, "t.yaml",
      .ok "\x7b\x7b .Values.missing \x7d\x7d".toList⟩]
  statValuesYaml := .notExist
  loadYaml := fun _ => .ok none

/-- Witness for C6 at a concrete environment: on the accumulate path a chart
reports a lint error and an undefined-value diagnostic simultaneously. -/
theorem scanHelmChart_stages_witness :
    (ScanHelmChart envLintUndef "c" []).errors =
      ["foo [ERROR] bad template",
        "Undefined value: 'missing' referenced in c/templates/t.yaml at line 1"] :=
  ((scanHelmChart_stages envLintUndef "c" []).2.2 (by decide) rfl rfl).trans
    (by decide)

/-- Environment whose chart values.yaml is absent. -/
def envValuesAbsent : ScanEnv where
  chartYamlDoc := .ok []
  mkdirTemp := .ok "tmpdir"
  helmDepUpdate := none
  valuesFileExists := fun _ => true
  helmLint := none
  statTemplatesDir := .notExist
  walkEntries := []
  statValuesYaml := .notExist
  loadYaml := fun _ => .ok none

/-- Environment whose chart values.yaml exists but is malformed. -/
def envValuesBad : ScanEnv where
  chartYamlDoc := .ok []
  mkdirTemp := .ok "tmpdir"
  helmDepUpdate := none
  valuesFileExists := fun _ => true
  helmLint := none
  statTemplatesDir := .notExist
  walkEntries := []
  statValuesYaml := .ok
  loadYaml := fun _ => .error "yaml: boom"

/-- Witness for C8 at concrete environments: an absent values.yaml yields the
empty mapping without error, a malformed one yields exactly the one load
error and fails the chart. -/
theorem loadValues_absent_malformed_empty_witness :
    loadAndMergeValues envValuesAbsent "c" [] = ([], []) ∧
      (loadAndMergeValues envValuesBad "c" []).2 =
        ["Error loading values.yaml: yaml: boom"] ∧
      (ScanHelmChart envValuesBad "c" []).success = false :=
  ⟨(loadValues_absent_malformed_empty envValuesAbsent "c").1 rfl,
    ((loadValues_absent_malformed_empty envValuesBad "c").2.1
      "yaml: boom" rfl rfl).1,
    ((loadValues_absent_malformed_empty envValuesBad "c").2.1
      "yaml: boom" rfl rfl).2 (by decide) rfl⟩

/-- `models.Result` (internal/models/result.go) as assembled by
`processCharts`. -/
structure GoResult where
  chartPath : String
  success : Bool
  errors : List String
  values : Option ValMap
  undefinedValues : List String

/-- The result a chart's goroutine hands to the critical section. -/
def chartResult (world : String → ScanEnv) (valuesFiles : List String)
    (chartDir : String) : GoResult :=
  ⟨chartDir, (ScanHelmChart (world chartDir) chartDir valuesFiles).success,
    (ScanHelmChart (world chartDir) chartDir valuesFiles).errors,
    (ScanHelmChart (world chartDir) chartDir valuesFiles).values,
    (ScanHelmChart (world chartDir) chartDir valuesFiles).undefinedValues⟩

/-- `processCharts` (cmd/chartscan/main.go lines 446-495): one goroutine per
chart computes `ScanHelmChart` independently of the others; the
mutex-protected critical section appends the chart's result to the shared
slice and increments the shared invalid counter.  Concurrency is modelled by
folding the critical sections in an arbitrary completion order, each fold
step being one atomic execution of the mutex-guarded block. -/
def processCharts (world : String → ScanEnv) (valuesFiles : List String)
    (completionOrder : List String) : List GoResult × Nat :=
  completionOrder.foldl
    (fun acc chartDir =>
      (acc.1 ++ [chartResult world valuesFiles chartDir],
        if (chartResult world valuesFiles chartDir).success then acc.2
        else acc.2 + 1))
    ([], 0)

theorem processCharts_eq (world : String → ScanEnv)
    (valuesFiles : List String) (order : List String) :
    processCharts world valuesFiles order =
      (order.map (chartResult world valuesFiles),
        (order.map (chartResult world valuesFiles)).countP
          (fun r => !r.success)) := by
  have key : ∀ (l : List String) (acc : List GoResult × Nat),
      l.foldl (fun acc chartDir =>
          (acc.1 ++ [chartResult world valuesFiles chartDir],
            if (chartResult world valuesFiles chartDir).success then acc.2
            else acc.2 + 1)) acc =
        (acc.1 ++ l.map (chartResult world valuesFiles),
          acc.2 + (l.map (chartResult world valuesFiles)).countP
            (fun r => !r.success)) := by
    intro l
    induction l with
    | nil => intro acc; simp
    | cons d rest ih =>
      intro acc
      rw [List.foldl_cons, ih]
      by_cases hs : (chartResult world valuesFiles d).success
      · simp [hs, List.countP_cons]
      · simp [hs, List.countP_cons]
        omega
  simpa using key order ([], 0)

/-- C9: for any completion order of the concurrently processed charts, the
final collection holds exactly one result per input chart (the multiset of
chart paths is exactly the input, in particular exactly N entries), and the
invalid-chart counter equals the number of results with `success = false`;
each fold step models one execution of the mutex-guarded update. -/
theorem processCharts_invariants (world : String → ScanEnv)
    (valuesFiles : List String) (chartDirs order : List String)
    (hperm : order.Perm chartDirs) :
    (processCharts world valuesFiles order).1.length = chartDirs.length ∧
      ((processCharts world valuesFiles order).1.map
        (fun r => r.chartPath)).Perm chartDirs ∧
      (processCharts world valuesFiles order).2 =
        (processCharts world valuesFiles order).1.countP
          (fun r => !r.success) := by
  rw [processCharts_eq]
  refine ⟨?_, ?_, rfl⟩
  · rw [List.length_map]
    exact hperm.length_eq
  · have hmap : ∀ l : List String,
        (l.map (chartResult world valuesFiles)).map
          (fun r => r.chartPath) = l := by
      intro l
      induction l with
      | nil => rfl
      | cons d rest ih =>
        simp only [List.map_cons, ih]
        rfl
    rw [hmap]
    exact hperm

/-- A world with one failing chart (unreadable Chart.yaml) and one clean
chart. -/
def worldTwoCharts : String → ScanEnv := fun d =>
  if d = "bad" then
    ⟨.error "open Chart.yaml: no such file", .ok "tmpdir", none,
      fun _ => true, none, .notExist, [], .notExist, fun _ => .ok none⟩
  else
    ⟨.ok [], .ok "tmpdir", none, fun _ => true, none, .notExist, [],
      .notExist, fun _ => .ok none⟩

/-- Witness for C9: two charts completing in reversed order still give two
results whose path multiset is the input and a counter matching the failed
results. -/
theorem processCharts_invariants_witness :
    (processCharts worldTwoCharts [] ["ok", "bad"]).1.length = 2 ∧
      ((processCharts worldTwoCharts [] ["ok", "bad"]).1.map
        (fun r => r.chartPath)).Perm ["bad", "ok"] ∧
      (processCharts worldTwoCharts [] ["ok", "bad"]).2 =
        (processCharts worldTwoCharts [] ["ok", "bad"]).1.countP
          (fun r => !r.success) :=
  processCharts_invariants worldTwoCharts [] ["bad", "ok"] ["ok", "bad"]
    (by decide)

end Chartscan

namespace Chartscan.HeapModel

/-- Heap-level model of Go values for the aliasing analysis of `mergeMaps`:
a `map[string]interface{}` value is a pointer (`hmapRef`) into a heap of
entry lists, so that reference sharing between maps is observable. -/
inductive HVal where
  | hnull
  | hbool (b : Bool)
  | hint (n : Int)
  | hstr (s : String)
  | hseq (xs : List HVal)
  | hmapRef (p : Nat)

/-- One entry of a heap-allocated map. -/
abbrev HEntry := String × HVal

/-- The Go heap: the entry list stored at each map pointer. -/
abbrev Heap := Nat → List HEntry

/-- Heap read `(*p)[k]`. -/
def hlookup (h : Heap) (p : Nat) (k : String) : Option HVal :=
  ((h p).find? (fun e => e.1 = k)).map (fun e => e.2)

/-- In-place update of an entry list: replace the entry if the key is
present, otherwise append. -/
def hsetEntries : List HEntry → String → HVal → List HEntry
  | [], k, v => [(k, v)]
  | (k', v') :: rest, k, v =>
    if k' = k then (k, v) :: rest else (k', v') :: hsetEntries rest k v

/-- Heap write `(*p)[k] = v`. -/
def hset (h : Heap) (p : Nat) (k : String) (v : HVal) : Heap :=
  fun q => if q = p then hsetEntries (h p) k v else h q

/-- Heap-level model of `mergeMaps` (renderer.go lines 161-173): iterate over
the entries stored at the source pointer; when both the target entry and the
source entry are map pointers, recurse on the pointed-to maps, otherwise
write the source value — including a nested map pointer, unchanged — into
the target map.  The fuel argument bounds the recursion depth (the Go
function recurses without bound; any fuel larger than the source nesting
depth is exact). -/
def mergeH : Nat → Heap → Nat → Nat → Heap
  | 0, h, _, _ => h
  | fuel + 1, h, t, s =>
    (h s).foldl
      (fun hh kv =>
        match hlookup hh t kv.1, kv.2 with
        | some (.hmapRef tp), .hmapRef sp => mergeH fuel hh tp sp
        | _, _ => hset hh t kv.1 kv.2)
      h

/-- One iteration of the merge loop at the heap level. -/
def mergeStepH (fuel : Nat) (t : Nat) (hh : Heap) (kv : HEntry) : Heap :=
  match hlookup hh t kv.1, kv.2 with
  | some (.hmapRef tp), .hmapRef sp => mergeH fuel hh tp sp
  | _, _ => hset hh t kv.1 kv.2

theorem mergeH_succ (fuel : Nat) (h : Heap) (t s : Nat) :
    mergeH (fuel + 1) h t s = (h s).foldl (mergeStepH fuel t) h := rfl

/-- No map entry anywhere in the heap holds a reference to map `s`. -/
def NoRefTo (h : Heap) (s : Nat) : Prop :=
  ∀ p e, e ∈ h p → e.2 ≠ HVal.hmapRef s

theorem mem_hsetEntries {l : List HEntry} {k : String} {v : HVal} {e : HEntry}
    (he : e ∈ hsetEntries l k v) : e ∈ l ∨ e = (k, v) := by
  induction l with
  | nil => simpa [hsetEntries] using he
  | cons e' rest ih =>
    obtain ⟨k', v'⟩ := e'
    rw [hsetEntries] at he
    by_cases hk : k' = k
    · rw [if_pos hk] at he
      rcases List.mem_cons.mp he with rfl | hmem
      · exact Or.inr rfl
      · exact Or.inl (List.mem_cons_of_mem _ hmem)
    · rw [if_neg hk] at he
      rcases List.mem_cons.mp he with rfl | hmem
      · exact Or.inl (List.mem_cons_self ..)
      · rcases ih hmem with h1 | h1
        · exact Or.inl (List.mem_cons_of_mem _ h1)
        · exact Or.inr h1

theorem hset_preserves {h : Heap} {s : Nat} (hno : NoRefTo h s) {p : Nat}
    {k : String} {v : HVal} (hv : v ≠ HVal.hmapRef s) :
    NoRefTo (hset h p k v) s := by
  intro q e he
  unfold hset at he
  by_cases hq : q = p
  · rw [if_pos hq] at he
    rcases mem_hsetEntries he with h1 | h1
    · exact hno p e h1
    · rw [h1]
      exact hv
  · rw [if_neg hq] at he
    exact hno q e he

theorem hset_ne {h : Heap} {p : Nat} {k : String} {v : HVal} {q : Nat}
    (hq : q ≠ p) : hset h p k v q = h q := by
  unfold hset
  rw [if_neg hq]

theorem hlookup_mem {h : Heap} {p : Nat} {k : String} {v : HVal}
    (hl : hlookup h p k = some v) : ∃ e, e ∈ h p ∧ e.2 = v := by
  unfold hlookup at hl
  cases hf : (h p).find? (fun e => e.1 = k) with
  | none => rw [hf] at hl; simp at hl
  | some e =>
    rw [hf] at hl
    simp at hl
    exact ⟨e, List.mem_of_find?_eq_some hf, hl⟩

theorem hlookup_eq_none_iff {h : Heap} {p : Nat} {k : String} :
    hlookup h p k = none ↔ ∀ e ∈ h p, ¬ e.1 = k := by
  constructor
  · intro hl
    have hfn : (h p).find? (fun e => e.1 = k) = none := by
      cases hf : (h p).find? (fun e => e.1 = k) with
      | none => rfl
      | some e =>
        unfold hlookup at hl
        rw [hf] at hl
        simp at hl
    intro e he
    simpa using List.find?_eq_none.mp hfn e he
  · intro hall
    unfold hlookup
    rw [List.find?_eq_none.mpr (fun x hx => by simpa using hall x hx)]
    rfl

theorem foldl_mergeStepH_preserves (fuel : Nat)
    (ih : ∀ (h : Heap) (t1 s1 s : Nat), t1 ≠ s → NoRefTo h s →
      mergeH fuel h t1 s1 s = h s ∧ NoRefTo (mergeH fuel h t1 s1) s)
    (s : Nat) :
    ∀ (es : List HEntry) (h : Heap) (t : Nat), t ≠ s → NoRefTo h s →
      (∀ e ∈ es, e.2 ≠ HVal.hmapRef s) →
      (es.foldl (mergeStepH fuel t) h) s = h s ∧
        NoRefTo (es.foldl (mergeStepH fuel t) h) s := by
  intro es
  induction es with
  | nil => exact fun h t _ hno _ => ⟨rfl, hno⟩
  | cons kv rest ihes =>
    intro h t hts hno hes
    rw [List.foldl_cons]
    have hkv : kv.2 ≠ HVal.hmapRef s := hes kv (List.mem_cons_self ..)
    have hstep : (mergeStepH fuel t h kv) s = h s ∧
        NoRefTo (mergeStepH fuel t h kv) s := by
      unfold mergeStepH
      cases hl : hlookup h t kv.1 with
      | none => exact ⟨hset_ne (Ne.symm hts), hset_preserves hno hkv⟩
      | some tv =>
        cases tv with
        | hmapRef tp =>
          cases hv : kv.2 with
          | hmapRef sp =>
            have htps : tp ≠ s := by
              obtain ⟨e, hein, he2⟩ := hlookup_mem hl
              intro hq
              exact hno t e hein (by rw [he2, hq])
            exact ih h tp sp s htps hno
          | hnull => exact ⟨hset_ne (Ne.symm hts),
              hset_preserves hno (hv ▸ hkv)⟩
          | hbool b => exact ⟨hset_ne (Ne.symm hts),
              hset_preserves hno (hv ▸ hkv)⟩
          | hint n => exact ⟨hset_ne (Ne.symm hts),
              hset_preserves hno (hv ▸ hkv)⟩
          | hstr z => exact ⟨hset_ne (Ne.symm hts),
              hset_preserves hno (hv ▸ hkv)⟩
          | hseq xs => exact ⟨hset_ne (Ne.symm hts),
              hset_preserves hno (hv ▸ hkv)⟩
        | hnull => exact ⟨hset_ne (Ne.symm hts), hset_preserves hno hkv⟩
        | hbool b => exact ⟨hset_ne (Ne.symm hts), hset_preserves hno hkv⟩
        | hint n => exact ⟨hset_ne (Ne.symm hts), hset_preserves hno hkv⟩
        | hstr z => exact ⟨hset_ne (Ne.symm hts), hset_preserves hno hkv⟩
        | hseq xs => exact ⟨hset_ne (Ne.symm hts), hset_preserves hno hkv⟩
    obtain ⟨hrec, hnorec⟩ := ihes (mergeStepH fuel t h kv) t hts hstep.2
      (fun e he => hes e (List.mem_cons_of_mem _ he))
    exact ⟨hrec.trans hstep.1, hnorec⟩

theorem mergeH_preserves :
    ∀ (fuel : Nat) (h : Heap) (t1 s1 s : Nat), t1 ≠ s → NoRefTo h s →
      mergeH fuel h t1 s1 s = h s ∧ NoRefTo (mergeH fuel h t1 s1) s := by
  intro fuel
  induction fuel with
  | zero => exact fun h t1 s1 s _ hno => ⟨rfl, hno⟩
  | succ fuel ih =>
    intro h t1 s1 s hts hno
    rw [mergeH_succ]
    exact foldl_mergeStepH_preserves fuel ih s (h s1) h t1 hts hno
      (fun e he => hno s1 e he)

theorem hsetEntries_append {l : List HEntry} {k : String} {v : HVal}
    (hnone : ∀ e ∈ l, ¬ e.1 = k) : hsetEntries l k v = l ++ [(k, v)] := by
  induction l with
  | nil => rfl
  | cons e rest ih =>
    obtain ⟨k', v'⟩ := e
    rw [hsetEntries, if_neg (hnone (k', v') (List.mem_cons_self ..)),
      ih (fun e' he' => hnone e' (List.mem_cons_of_mem _ he'))]
    rfl

theorem foldl_mergeStepH_install (fuel : Nat) :
    ∀ (es : List HEntry) (h : Heap) (t : Nat),
      (∀ e ∈ es, hlookup h t e.1 = none) → (es.map Prod.fst).Nodup →
      (es.foldl (mergeStepH fuel t) h) t = h t ++ es ∧
        ∀ q, q ≠ t → (es.foldl (mergeStepH fuel t) h) q = h q := by
  intro es
  induction es with
  | nil => exact fun h t _ _ => ⟨(List.append_nil (h t)).symm, fun q _ => rfl⟩
  | cons kv rest ihes =>
    intro h t hnone hnd
    obtain ⟨k, v⟩ := kv
    simp only [List.map_cons, List.nodup_cons] at hnd
    have hlk : hlookup h t k = none := hnone (k, v) (List.mem_cons_self ..)
    have hstep : mergeStepH fuel t h (k, v) = hset h t k v := by
      unfold mergeStepH
      rw [hlk]
    have hsetT : (hset h t k v) t = h t ++ [(k, v)] := by
      unfold hset
      rw [if_pos rfl]
      exact hsetEntries_append (hlookup_eq_none_iff.mp hlk)
    have hnone2 : ∀ e ∈ rest, hlookup (hset h t k v) t e.1 = none := by
      intro e he
      rw [hlookup_eq_none_iff]
      intro x hx
      rw [hsetT] at hx
      rcases List.mem_append.mp hx with hx1 | hx1
      · exact hlookup_eq_none_iff.mp (hnone e (List.mem_cons_of_mem _ he)) x hx1
      · have hxkv : x = (k, v) := by simpa using hx1
        rw [hxkv]
        intro hq
        have hk : k ∈ List.map Prod.fst rest := by
          rw [show k = e.1 from hq]
          exact List.mem_map_of_mem Prod.fst he
        exact hnd.1 hk
    rw [List.foldl_cons, hstep]
    obtain ⟨hrec, hother⟩ := ihes (hset h t k v) t hnone2 hnd.2
    refine ⟨?_, fun q hq => (hother q hq).trans (hset_ne hq)⟩
    rw [hrec, hsetT]
    simp

/-- C4 amended: `mergeMaps` does not write to the source map itself (whenever
the source map is not referenced as a nested value anywhere in the heap), but
it makes no defensive copy — merging into an empty target installs the
source's entries, nested map pointers included, verbatim into the target and
touches no other heap cell — so the merged target aliases the source's nested
mappings and a later external mutation of those mappings alters the merged
target state. -/
theorem mergeMaps_no_copy :
    (∀ (fuel : Nat) (h : Heap) (t s : Nat), t ≠ s → NoRefTo h s →
        mergeH fuel h t s s = h s) ∧
      (∀ (fuel : Nat) (h : Heap) (t s : Nat), h t = [] →
        ((h s).map Prod.fst).Nodup →
        mergeH (fuel + 1) h t s t = h s ∧
          ∀ q, q ≠ t → mergeH (fuel + 1) h t s q = h q) := by
  constructor
  · exact fun fuel h t s hts hno => (mergeH_preserves fuel h t s s hts hno).1
  · intro fuel h t s ht hnd
    rw [mergeH_succ]
    have hin := foldl_mergeStepH_install fuel (h s) h t
      (fun e _ => hlookup_eq_none_iff.mpr (fun x hx => by rw [ht] at hx; cases hx))
      hnd
    rw [ht] at hin
    simpa using hin


/-- The concrete heap of the counterexample: map 0 is the empty target, map 1
is the source `{a: &2}`, map 2 is the nested source map `{b: 1}`. -/
def exHeap : Heap := fun p =>
  if p = 1 then [("a", HVal.hmapRef 2)]
  else if p = 2 then [("b", HVal.hint 1)]
  else []

/-- C4 counterexample: after `merge(target = 0, source = 1)` the target's
entry `a` holds the very pointer 2 that the source's entry `a` holds (no
defensive copy), so externally writing `99` into map 2 — the original nested
source map — changes the value reachable from the merged target at `a.b`
from `1` to `99`. -/
theorem mergeMaps_aliasing_counterexample :
    hlookup exHeap 1 "a" = some (HVal.hmapRef 2) ∧
      hlookup exHeap 2 "b" = some (HVal.hint 1) ∧
      hlookup (mergeH 2 exHeap 0 1) 0 "a" = some (HVal.hmapRef 2) ∧
      hlookup (hset (mergeH 2 exHeap 0 1) 2 "b" (HVal.hint 99)) 0 "a" =
        some (HVal.hmapRef 2) ∧
      hlookup (hset (mergeH 2 exHeap 0 1) 2 "b" (HVal.hint 99)) 2 "b" =
        some (HVal.hint 99) := by
  refine ⟨rfl, rfl, rfl, rfl, rfl⟩

/-- The heap used by the witness: target 0 empty, source 1 with a scalar and
a nested map pointer to 2. -/
def exHeapW : Heap := fun p =>
  if p = 1 then [("x", HVal.hint 5), ("m", HVal.hmapRef 2)]
  else if p = 2 then [("y", HVal.hint 6)] else []

/-- Witness for the amended C4 at a concrete heap: the source map itself is
unchanged, the target receives exactly the source's entries, and the nested
map cell is untouched by the merge. -/
theorem mergeMaps_no_copy_witness :
    mergeH 3 exHeapW 0 1 1 = exHeapW 1 ∧
      mergeH 3 exHeapW 0 1 0 = exHeapW 1 ∧
      mergeH 3 exHeapW 0 1 2 = exHeapW 2 := by
  have hno : NoRefTo exHeapW 1 := by
    intro p e he
    unfold exHeapW at he
    by_cases h1 : p = 1
    · rw [if_pos h1] at he
      rcases List.mem_cons.mp he with rfl | he2
      · exact fun hq => HVal.noConfusion hq
      · rcases List.mem_cons.mp he2 with rfl | he3
        · exact fun hq => by
            have : (2 : Nat) = 1 := HVal.noConfusion hq (fun h => h)
            cases this
        · cases he3
    · rw [if_neg h1] at he
      by_cases h2 : p = 2
      · rw [if_pos h2] at he
        rcases List.mem_cons.mp he with rfl | he2
        · exact fun hq => HVal.noConfusion hq
        · cases he2
      · rw [if_neg h2] at he
        cases he
  have h2 := mergeMaps_no_copy.2 2 exHeapW 0 1 rfl (by decide)
  exact ⟨mergeMaps_no_copy.1 3 exHeapW 0 1 (by decide) hno,
    h2.1, h2.2 2 (by decide)⟩

end Chartscan.HeapModel
